import Mathlib

/-!
Verification development for the sudoku_wfc repository.

The definitions below are a shallow embedding of the core of
`src/sudoku_wfc.c` (the file that contains the full program: grid state,
constraint propagation, the greedy solver, undo and reset).  C `int` tile
masks are modelled as `Nat`: every mask the program ever stores is
non-negative and all readers only inspect the low 9 bits.  The 81-entry
global arrays `tiles` and `last_tiles` are modelled as functions
`Nat → Nat`; every access the program performs uses an index
`y * 9 + x` with `x, y < 9`, hence lies below 81.

The recursive constraint cascade (`constrain_tile` / `constrain_peers`)
is embedded with an explicit fuel parameter that bounds the depth of
nested `constrain_tile → constrain_peers` recursions; `none` means the
fuel was exhausted.  Termination of the C recursion is proved below as
the statement that fuel 82 always suffices.  Likewise `solve_board`'s
self-recursion carries fuel, and the C `while` loop that scans for a set
candidate bit is embedded as `pick_value`, with `none` modelling the
infinite loop the C code would enter on a mask with no low bit set.
-/

/-- The 81-cell tile array (`static int tiles[BOARD_SIZE]` resp.
`last_tiles`): index `y * 9 + x` holds the candidate bitmask of the cell
at column `x`, row `y`. -/
abbrev Board := Nat → Nat

/-- The mutable state of the program: the `tiles` array and the one-slot
undo snapshot `last_tiles`.  Both C arrays are zero-initialised. -/
structure WfcState where
  tiles : Board
  last_tiles : Board

instance : Inhabited WfcState := ⟨⟨fun _ => 0, fun _ => 0⟩⟩

/-- `reset_tiles` from sudoku_wfc.c: sets every tile to `0x1FF`.  It
writes only the `tiles` array; the snapshot is untouched. -/
def reset_tiles (s : WfcState) : WfcState :=
  { s with tiles := fun _ => 0x1FF }

/-- `undo_tiles` from sudoku_wfc.c: copies `last_tiles` back into
`tiles`.  The snapshot itself is not modified. -/
def undo_tiles (s : WfcState) : WfcState :=
  { s with tiles := s.last_tiles }

/-- `get_tile` from sudoku_wfc.c: the tile at column `x`, row `y` is
`tiles[y * BOARD_WIDTH + x]`. -/
def getTile (b : Board) (x y : Nat) : Nat := b (y * 9 + x)

/-- Writing through the pointer returned by `get_tile`: replace the
entry at linear index `i`. -/
def setTile (b : Board) (i v : Nat) : Board := fun j => if j = i then v else b j

/-- `is_set` from sudoku_wfc.c: whether bit `bit` of the tile at `(x, y)`
is set (`*get_tile(x, y) & (1 << bit)`). -/
def is_set (b : Board) (x y bit : Nat) : Bool := (getTile b x y).testBit bit

/-- `get_tile_entropy` from sudoku_wfc.c: the number of set bits among
bits 0..8 of tile `i` (the code sums `is_set(i % 9, i / 9, k)` for
`k = 0..8`). -/
def get_tile_entropy (b : Board) (i : Nat) : Nat :=
  (List.range 9).countP (fun k => is_set b (i % 9) (i / 9) k)

/-- `get_board_entropy` from sudoku_wfc.c: sum of the entropies of all
81 tiles. -/
def get_board_entropy (b : Board) : Nat :=
  ((List.range 81).map (fun i => get_tile_entropy b i)).sum

/-- `is_collapsed` from sudoku_wfc.c: tile `(x, y)` has exactly one
superposition left (`get_tile_entropy(x + y * BOARD_WIDTH) == 1`). -/
def is_collapsed (b : Board) (x y : Nat) : Bool :=
  get_tile_entropy b (x + y * 9) == 1

/-- `get_collapsed_value` from sudoku_wfc.c: `(int) log2(value & 0x1FF)`.
For a non-zero masked value this is the floor of the base-2 logarithm,
i.e. the index of the highest set bit among bits 0..8.  The C code is
undefined for a zero masked value (`log2(0)` is `-inf`); `Nat.log2 0 = 0`
stands in for that unreachable case. -/
def get_collapsed_value (b : Board) (x y : Nat) : Nat :=
  Nat.log2 (getTile b x y % 512)

/-- The sequence of cells visited by `constrain_peers(x, y, value)` in
sudoku_wfc.c, in program order.  The row/column loop runs `i = 0..8`,
skips the iteration entirely when `i == x || i == y`, and otherwise
constrains `(i, y)` then `(x, i)`.  The box loop runs over the 3x3 box
in row-major order and skips only the origin `(x, y)`. -/
def peer_list (x y : Nat) : List (Nat × Nat) :=
  (((List.range 9).filter (fun i => !(i == x || i == y))).map
      (fun i => [(i, y), (x, i)])).flatten ++
  (((List.range 3).map (fun di =>
      (List.range 3).map (fun dj => (x / 3 * 3 + dj, y / 3 * 3 + di)))).flatten).filter
    (fun p => !(p.2 == y && p.1 == x))

/-- The body of the peer loops: for each cell in the list, if it is not
already collapsed, apply the constraining function `ct` to it; a `none`
from `ct` (fuel exhaustion) aborts. -/
def constrain_list (ct : Board → Nat → Nat → Nat → Option Board) :
    Board → List (Nat × Nat) → Nat → Option Board
  | b, [], _ => some b
  | b, p :: rest, v =>
    match (if is_collapsed b p.1 p.2 then some b else ct b p.1 p.2 v) with
    | none => none
    | some b2 => constrain_list ct b2 rest v

/-- `constrain_tile` from sudoku_wfc.c: clear bit `v` of tile `(x, y)`:
`*get_tile(x, y) &= ~(1 << value)`, where `~` on the 32-bit C `int` is
modelled as xor with `0xFFFFFFFF`.  If the tile is now collapsed, its
peers are recursively constrained with its collapsed value.  `fuel`
bounds the recursion depth. -/
def constrain_tile (fuel : Nat) : Board → Nat → Nat → Nat → Option Board :=
  Nat.rec (motive := fun _ => Board → Nat → Nat → Nat → Option Board)
    (fun _ _ _ _ => none)
    (fun _ ih b x y v =>
      let b1 := setTile b (y * 9 + x) (getTile b x y &&& (4294967295 ^^^ (1 <<< v)))
      if is_collapsed b1 x y then
        constrain_list ih b1 (peer_list x y) (get_collapsed_value b1 x y)
      else some b1)
    fuel

theorem constrain_tile_zero (b : Board) (x y v : Nat) :
    constrain_tile 0 b x y v = none := rfl

theorem constrain_tile_succ (fuel : Nat) (b : Board) (x y v : Nat) :
    constrain_tile (fuel + 1) b x y v =
      if is_collapsed (setTile b (y * 9 + x) (getTile b x y &&& (4294967295 ^^^ (1 <<< v)))) x y then
        constrain_list (constrain_tile fuel)
          (setTile b (y * 9 + x) (getTile b x y &&& (4294967295 ^^^ (1 <<< v))))
          (peer_list x y)
          (get_collapsed_value (setTile b (y * 9 + x) (getTile b x y &&& (4294967295 ^^^ (1 <<< v)))) x y)
      else some (setTile b (y * 9 + x) (getTile b x y &&& (4294967295 ^^^ (1 <<< v)))) := rfl

/-- `constrain_peers` from sudoku_wfc.c: constrain every not-yet-collapsed
cell in the row, column and 3x3 box of `(x, y)` (in the order and with
the skips of `peer_list`). -/
def constrain_peers (fuel : Nat) (b : Board) (x y v : Nat) : Option Board :=
  constrain_list (constrain_tile fuel) b (peer_list x y) v

/-- `collapse_tile` from sudoku_wfc.c: snapshot `tiles` into
`last_tiles`, overwrite tile `(x, y)` with the single bit `1 << value`,
then constrain the peers. -/
def collapse_tile (fuel : Nat) (s : WfcState) (x y v : Nat) : Option WfcState :=
  match constrain_peers fuel (setTile s.tiles (y * 9 + x) (1 <<< v)) x y v with
  | none => none
  | some t2 => some ⟨t2, s.tiles⟩

/-- The candidate-choosing `while` loop of `solve_board`: starting from
the random bit index `r` (in `0..8`), advance cyclically modulo 9 until
a set bit of mask `m` is found.  `none` models the infinite loop the C
code enters when `m` has no set bit among bits 0..8. -/
def pick_value (m : Nat) (r : Nat) : Option Nat :=
  ((List.range 9).map (fun k => (r + k) % 9)).find? (fun j => m.testBit j)

/-- One comparison/swap of the sorting loops in `solve_board`: if the
entropy of the tile index stored at position `i` exceeds the entropy of
the one at position `j`, swap the two positions. -/
def sort_step (b : Board) (a : List Nat) (i j : Nat) : List Nat :=
  if get_tile_entropy b (a.getD i 0) ≤ get_tile_entropy b (a.getD j 0) then a
  else (a.set i (a.getD j 0)).set j (a.getD i 0)

/-- The sorting pass of `solve_board`: starting from `sorted_tiles[i] = i`,
run `for i in 0..80: for j in i+1..80: if entropy(a[i]) > entropy(a[j]) swap`. -/
def sort_tiles (b : Board) : List Nat :=
  (List.range 81).foldl
    (fun a i => ((List.range 81).drop (i + 1)).foldl (fun a2 j => sort_step b a2 i j) a)
    (List.range 81)

/-- The collapsing loop of `solve_board`: walk the sorted tile indices,
skip collapsed ones, and collapse each remaining one to a value chosen
by the cyclic scan from a random start.  `rand` is the stream of values
returned by `GetRandomValue(0, 8)` (taken modulo 9) and `rc` counts how
many random values have been consumed.  The constraint cascade gets
fuel 82, which is proved sufficient below. -/
def solve_pass (rand : Nat → Nat) : Nat → WfcState → List Nat → Option (WfcState × Nat)
  | rc, s, [] => some (s, rc)
  | rc, s, idx :: rest =>
    if is_collapsed s.tiles (idx % 9) (idx / 9) then solve_pass rand rc s rest
    else
      match pick_value (getTile s.tiles (idx % 9) (idx / 9)) (rand rc % 9) with
      | none => none
      | some v =>
        match collapse_tile 82 s (idx % 9) (idx / 9) v with
        | none => none
        | some s2 => solve_pass rand (rc + 1) s2 rest

/-- `solve_board` from sudoku_wfc.c: if the board entropy is 81 the board
is solved; otherwise sort the indices by entropy, collapse every
uncollapsed tile in that order, and recurse.  `fuel` bounds the
self-recursion depth; `none` models non-termination. -/
def solve_board : Nat → (Nat → Nat) → Nat → WfcState → Option (WfcState × Nat)
  | 0, _, _, _ => none
  | fuel + 1, rand, rc, s =>
    if get_board_entropy s.tiles == 81 then some (s, rc)
    else
      match solve_pass rand rc s (sort_tiles s.tiles) with
      | none => none
      | some (s2, rc2) => solve_board fuel rand rc2 s2

/-! ### Basic facts about masks, entropy and the board representation -/

/-- Entropy of a raw mask value: the number of set bits among bits 0..8.
`get_tile_entropy b i` only depends on the mask `b i`, through this
function. -/
def maskEntropy (m : Nat) : Nat := (List.range 9).countP (fun k => m.testBit k)

theorem get_tile_entropy_eq (b : Board) (i : Nat) :
    get_tile_entropy b i = maskEntropy (b i) := by
  have h : i / 9 * 9 + i % 9 = i := by
    rw [Nat.mul_comm]; exact Nat.div_add_mod i 9
  simp [get_tile_entropy, maskEntropy, is_set, getTile, h]

theorem is_collapsed_iff {b : Board} {x y : Nat} :
    is_collapsed b x y = true ↔ maskEntropy (b (y * 9 + x)) = 1 := by
  have h : x + y * 9 = y * 9 + x := Nat.add_comm _ _
  rw [is_collapsed, get_tile_entropy_eq, h, beq_iff_eq]

theorem is_collapsed_false_iff {b : Board} {x y : Nat} :
    is_collapsed b x y = false ↔ maskEntropy (b (y * 9 + x)) ≠ 1 := by
  rw [Bool.eq_false_iff, Ne, is_collapsed_iff]

theorem setTile_self (b : Board) (i v : Nat) : setTile b i v i = v := by
  simp [setTile]

theorem setTile_ne (b : Board) (i v : Nat) {j : Nat} (h : j ≠ i) :
    setTile b i v j = b j := by
  simp [setTile, h]

theorem testBit_clear (m v k : Nat) (hk : k < 32) :
    (m &&& (4294967295 ^^^ (1 <<< v))).testBit k =
      (m.testBit k && !(decide (v = k))) := by
  have h32 : (4294967295 : Nat) = 2 ^ 32 - 1 := by norm_num
  rw [Nat.testBit_land, Nat.testBit_xor, h32, Nat.testBit_two_pow_sub_one,
    Nat.one_shiftLeft, Nat.testBit_two_pow]

  have : decide (k < 32) = true := decide_eq_true hk
  rw [this]
  cases hm : m.testBit k
  · simp
  · simp

theorem maskEntropy_pos_iff {m : Nat} :
    1 ≤ maskEntropy m ↔ ∃ k, k < 9 ∧ m.testBit k = true := by
  rw [maskEntropy, Nat.lt_iff_add_one_le.symm.trans Iff.rfl] at *
  constructor
  · intro h
    have := List.countP_pos_iff.1 (Nat.lt_of_lt_of_le Nat.zero_lt_one h)
    rcases this with ⟨k, hk, hb⟩
    exact ⟨k, List.mem_range.1 hk, hb⟩
  · rintro ⟨k, hk, hb⟩
    exact List.countP_pos_iff.2 ⟨k, List.mem_range.2 hk, hb⟩

theorem maskEntropy_shiftLeft_one : ∀ v, v < 9 → maskEntropy (1 <<< v) = 1 := by decide

/-- Counting helper: if `q` agrees with `p` except that it forces `false`
at the single value `v`, then on a duplicate-free list the `q`-count is
at most one below the `p`-count. -/
theorem countP_le_countP_succ {p q : Nat → Bool} {v : Nat} :
    ∀ l : List Nat, l.Nodup → (∀ a, q a = (p a && !(decide (v = a)))) →
      l.countP p ≤ l.countP q + 1 := by
  intro l
  induction l with
  | nil => intro _ _; simp
  | cons a t ih =>
    intro hnd hq
    have hnd' := hnd
    rw [List.nodup_cons] at hnd'
    rcases hnd' with ⟨hna, hndt⟩
    by_cases hpa : p a = true
    · by_cases hva : v = a
      · subst hva
        have hqv : q v = false := by rw [hq]; simp
        have heq : t.countP q = t.countP p := by
          apply List.countP_congr
          intro b hb
          have hbv : v ≠ b := fun h => hna (h ▸ hb)
          rw [hq]; simp [hbv]
        rw [List.countP_cons, List.countP_cons, hqv, hpa]
        simp only [Bool.false_eq_true, eq_self_iff_true, if_true, if_false]
        omega
      · have hqa : q a = true := by rw [hq]; simp [hpa, hva]
        have := ih hndt hq
        rw [List.countP_cons, List.countP_cons, hqa, hpa]
        omega
    · have hpa' : p a = false := by revert hpa; cases p a <;> simp
      have hqa : q a = false := by rw [hq, hpa']; simp
      have := ih hndt hq
      rw [List.countP_cons, List.countP_cons, hqa, hpa']
      omega

/-- Clearing one bit lowers the 9-bit popcount by at most one. -/
theorem maskEntropy_clear_ge {m v : Nat} (h : 2 ≤ maskEntropy m) :
    1 ≤ maskEntropy (m &&& (4294967295 ^^^ (1 <<< v))) := by
  have hcl : ∀ a ∈ List.range 9,
      (m &&& (4294967295 ^^^ (1 <<< v))).testBit a =
        (m.testBit a && !(decide (v = a))) := by
    intro a ha
    exact testBit_clear m v a (by have := List.mem_range.1 ha; omega)
  have key : (List.range 9).countP (fun k => m.testBit k) ≤
      (List.range 9).countP
        (fun k => (m &&& (4294967295 ^^^ (1 <<< v))).testBit k) + 1 := by
    have hq : (List.range 9).countP
        (fun k => (m &&& (4294967295 ^^^ (1 <<< v))).testBit k) =
        (List.range 9).countP (fun k => m.testBit k && !(decide (v = k))) :=
      List.countP_congr (fun x hx => by rw [hcl x hx])
    rw [hq]
    exact countP_le_countP_succ (List.range 9) (List.nodup_range 9) (fun a => rfl)
    -- the exception lemma instantiated with q a := p a && !(decide (v = a))
  have h2 : maskEntropy m ≤ maskEntropy (m &&& (4294967295 ^^^ (1 <<< v))) + 1 := key
  omega

/-- Counting helper: a pointwise implication `q → p` that strictly fails
at some list element gives a strict count inequality. -/
theorem countP_lt_countP {p q : Nat → Bool} :
    ∀ (l : List Nat) (t : Nat), t ∈ l → (∀ a ∈ l, q a = true → p a = true) →
      p t = true → q t = false → l.countP q < l.countP p := by
  intro l
  induction l with
  | nil => intro t ht; cases ht
  | cons a r ih =>
    intro t ht himp hpt hqt
    rcases List.mem_cons.1 ht with rfl | htr
    · have hmono : r.countP q ≤ r.countP p := by
        apply List.countP_mono_left
        intro b hb
        exact himp b (List.mem_cons_of_mem _ hb)
      rw [List.countP_cons, List.countP_cons, hqt, hpt]
      simp only [Bool.false_eq_true, eq_self_iff_true, if_true, if_false]
      omega
    · have := ih t htr (fun b hb => himp b (List.mem_cons_of_mem _ hb)) hpt hqt
      rw [List.countP_cons, List.countP_cons]
      by_cases hqa : q a = true
      · rw [hqa, himp a (List.mem_cons_self a r) hqa]
        simp only [Bool.false_eq_true, eq_self_iff_true, if_true, if_false]
        omega
      · have hqa' : q a = false := by revert hqa; cases q a <;> simp
        rw [hqa']
        by_cases hpa : p a = true
        · rw [hpa]
          simp only [Bool.false_eq_true, eq_self_iff_true, if_true, if_false]
          omega
        · have hpa' : p a = false := by revert hpa; cases p a <;> simp
          rw [hpa']
          simp only [Bool.false_eq_true, eq_self_iff_true, if_true, if_false]
          omega

/-! ### The number of uncollapsed cells, and the cascade relation -/

/-- Number of cells (among the 81 real ones) whose entropy is not 1. -/
def uncol (b : Board) : Nat :=
  (List.range 81).countP (fun i => !(maskEntropy (b i) == 1))

theorem uncol_le (b : Board) : uncol b ≤ 81 := by
  have := List.countP_le_length (p := fun i => !(maskEntropy (b i) == 1))
    (l := List.range 81)
  simpa using this

/-- Boards only ever shrink during a cascade: every set bit of the new
board was set in the old one. -/
def Shrinks (b b2 : Board) : Prop :=
  ∀ i k, (b2 i).testBit k = true → (b i).testBit k = true

/-- A cascade never touches an already-collapsed cell. -/
def KeepsCollapsed (b b2 : Board) : Prop :=
  ∀ i, maskEntropy (b i) = 1 → b2 i = b i

/-- All 81 cells have at least one candidate left. -/
def NZmask (b : Board) : Prop := ∀ i, i < 81 → 1 ≤ maskEntropy (b i)

/-- The three invariants preserved by a constraint cascade. -/
def Cascades (b b2 : Board) : Prop :=
  Shrinks b b2 ∧ KeepsCollapsed b b2 ∧ (NZmask b → NZmask b2)

theorem cascades_refl (b : Board) : Cascades b b :=
  ⟨fun _ _ h => h, fun _ _ => rfl, fun h => h⟩

theorem cascades_trans {a b c : Board} (h1 : Cascades a b) (h2 : Cascades b c) :
    Cascades a c := by
  obtain ⟨s1, k1, n1⟩ := h1
  obtain ⟨s2, k2, n2⟩ := h2
  refine ⟨fun i k h => s1 i k (s2 i k h), fun i h => ?_, fun h => n2 (n1 h)⟩
  have hb := k1 i h
  have : maskEntropy (b i) = 1 := by rw [hb]; exact h
  rw [k2 i this, hb]

theorem uncol_mono {b b2 : Board} (h : KeepsCollapsed b b2) : uncol b2 ≤ uncol b := by
  apply List.countP_mono_left
  intro i _ hq
  by_contra hne
  have h1 : maskEntropy (b i) = 1 := by
    revert hne
    cases hbe : (maskEntropy (b i) == 1) <;> simp [beq_iff_eq] at hbe ⊢ <;> simp [hbe]
  have := h i h1
  rw [this, h1] at hq
  simp at hq

theorem uncol_set_lt {b : Board} {t m2 : Nat} (ht : t < 81)
    (h1 : maskEntropy (b t) ≠ 1) (h2 : maskEntropy m2 = 1) :
    uncol (setTile b t m2) < uncol b := by
  apply countP_lt_countP (List.range 81) t (List.mem_range.2 ht)
  · intro a _ hq
    by_cases hat : a = t
    · subst hat
      rw [setTile_self] at hq
      simp [h2] at hq
    · rw [setTile_ne b t m2 hat] at hq
      exact hq
  · simp [h1]
  · rw [setTile_self]; simp [h2]

/-! ### The constraint cascade: invariants and fuel sufficiency -/

theorem peer_list_coords {x y : Nat} (hx : x < 9) (hy : y < 9) :
    ∀ p ∈ peer_list x y, p.1 < 9 ∧ p.2 < 9 := by
  intro p hp
  rw [peer_list, List.mem_append] at hp
  rcases hp with hp | hp
  · rw [List.mem_flatten] at hp
    rcases hp with ⟨l, hl, hpl⟩
    rw [List.mem_map] at hl
    rcases hl with ⟨i, hi, rfl⟩
    rw [List.mem_filter, List.mem_range] at hi
    rcases List.mem_cons.1 hpl with rfl | hpl'
    · exact ⟨hi.1, hy⟩
    · rcases List.mem_cons.1 hpl' with rfl | hpl''
      · exact ⟨hx, hi.1⟩
      · cases hpl''
  · rw [List.mem_filter] at hp
    rcases hp with ⟨hp, -⟩
    rw [List.mem_flatten] at hp
    rcases hp with ⟨l, hl, hpl⟩
    rw [List.mem_map] at hl
    rcases hl with ⟨di, hdi, rfl⟩
    rw [List.mem_map] at hpl
    rcases hpl with ⟨dj, hdj, rfl⟩
    rw [List.mem_range] at hdi hdj
    refine ⟨?_, ?_⟩ <;> · simp only []; omega

/-- One bit-clearing write (the first line of `constrain_tile`) satisfies
the cascade invariants, provided the written cell was not collapsed. -/
theorem cascades_clear {b : Board} {x y v : Nat}
    (hnc : is_collapsed b x y = false) :
    Cascades b (setTile b (y * 9 + x) (getTile b x y &&& (4294967295 ^^^ (1 <<< v)))) := by
  have hne : maskEntropy (b (y * 9 + x)) ≠ 1 := is_collapsed_false_iff.1 hnc
  refine ⟨?_, ?_, ?_⟩
  · intro i k hk
    by_cases hit : i = y * 9 + x
    · subst hit
      rw [setTile_self, Nat.testBit_land, Bool.and_eq_true] at hk
      exact hk.1
    · rwa [setTile_ne _ _ _ hit] at hk
  · intro i hi
    have hit : i ≠ y * 9 + x := fun he => hne (he ▸ hi)
    rw [setTile_ne _ _ _ hit]
  · intro hnz i hi
    by_cases hit : i = y * 9 + x
    · subst hit
      rw [setTile_self]
      have h1 := hnz _ hi
      have h2 : 2 ≤ maskEntropy (b (y * 9 + x)) := by omega
      exact maskEntropy_clear_ge h2
    · rw [setTile_ne _ _ _ hit]; exact hnz i hi

theorem constrain_cascades :
    ∀ fuel : Nat,
      (∀ b x y v b2, constrain_tile fuel b x y v = some b2 →
        is_collapsed b x y = false → Cascades b b2) ∧
      (∀ l b v b2, constrain_list (constrain_tile fuel) b l v = some b2 →
        Cascades b b2) := by
  intro fuel
  induction fuel with
  | zero =>
    constructor
    · intro b x y v b2 h
      rw [constrain_tile_zero] at h
      cases h
    · intro l b v b2 h
      induction l generalizing b with
      | nil =>
        rw [constrain_list] at h
        cases h
        exact cascades_refl _
      | cons p rest ihl =>
        rw [constrain_list] at h
        cases hc : is_collapsed b p.1 p.2 with
        | true =>
          rw [hc] at h
          simp only [eq_self_iff_true, if_true] at h
          exact ihl b h
        | false =>
          rw [hc] at h
          simp only [Bool.false_eq_true, if_false, constrain_tile_zero] at h
          cases h
  | succ fuel ih =>
    have hct : ∀ b x y v b2, constrain_tile (fuel + 1) b x y v = some b2 →
        is_collapsed b x y = false → Cascades b b2 := by
      intro b x y v b2 h hnc
      rw [constrain_tile_succ] at h
      cases hcol : is_collapsed (setTile b (y * 9 + x) (getTile b x y &&& (4294967295 ^^^ (1 <<< v)))) x y with
      | false =>
        rw [hcol] at h
        simp only [Bool.false_eq_true, if_false] at h
        cases h
        exact cascades_clear hnc
      | true =>
        rw [hcol] at h
        simp only [eq_self_iff_true, if_true] at h
        exact cascades_trans (cascades_clear hnc) (ih.2 _ _ _ _ h)
    refine ⟨hct, ?_⟩
    intro l b v b2 h
    induction l generalizing b with
    | nil =>
      rw [constrain_list] at h
      cases h
      exact cascades_refl _
    | cons p rest ihl =>
      rw [constrain_list] at h
      cases hc : is_collapsed b p.1 p.2 with
      | true =>
        rw [hc] at h
        simp only [eq_self_iff_true, if_true] at h
        exact ihl b h
      | false =>
        rw [hc] at h
        simp only [Bool.false_eq_true, if_false] at h
        cases hmid : constrain_tile (fuel + 1) b p.1 p.2 v with
        | none => rw [hmid] at h; cases h
        | some bmid =>
          rw [hmid] at h
          exact cascades_trans (hct _ _ _ _ _ hmid hc) (ihl bmid h)

theorem constrain_tile_cascades {fuel : Nat} {b : Board} {x y v : Nat} {b2 : Board}
    (h : constrain_tile fuel b x y v = some b2) (hnc : is_collapsed b x y = false) :
    Cascades b b2 :=
  (constrain_cascades fuel).1 b x y v b2 h hnc

theorem constrain_list_cascades {fuel : Nat} {l : List (Nat × Nat)} {b : Board}
    {v : Nat} {b2 : Board}
    (h : constrain_list (constrain_tile fuel) b l v = some b2) :
    Cascades b b2 :=
  (constrain_cascades fuel).2 l b v b2 h

theorem constrain_list_some {fuel : Nat}
    (hct : ∀ b x y v, x < 9 → y < 9 → is_collapsed b x y = false → uncol b < fuel →
      (constrain_tile fuel b x y v).isSome = true) :
    ∀ (l : List (Nat × Nat)) (b : Board) (v : Nat), (∀ p ∈ l, p.1 < 9 ∧ p.2 < 9) →
      uncol b < fuel → (constrain_list (constrain_tile fuel) b l v).isSome = true := by
  intro l
  induction l with
  | nil => intro b v _ _; rw [constrain_list]; rfl
  | cons p rest ih =>
    intro b v hcoords hu
    rw [constrain_list]
    cases hc : is_collapsed b p.1 p.2 with
    | true =>
      simp only [eq_self_iff_true, if_true]
      exact ih b v (fun q hq => hcoords q (List.mem_cons_of_mem _ hq)) hu
    | false =>
      simp only [Bool.false_eq_true, if_false]
      obtain ⟨h1, h2⟩ := hcoords p (List.mem_cons_self p rest)
      have hs := hct b p.1 p.2 v h1 h2 hc hu
      cases hmid : constrain_tile fuel b p.1 p.2 v with
      | none => rw [hmid] at hs; cases hs
      | some bmid =>
        have hcas := constrain_tile_cascades hmid hc
        have hmono := uncol_mono hcas.2.1
        exact ih bmid v (fun q hq => hcoords q (List.mem_cons_of_mem _ hq))
          (lt_of_le_of_lt hmono hu)

/-- Fuel sufficiency for a single constrain call: fuel exceeding the
number of uncollapsed cells can never run out, because every recursion
level corresponds to a newly collapsed cell. -/
theorem constrain_some :
    ∀ (fuel : Nat) (b : Board) (x y v : Nat), x < 9 → y < 9 →
      is_collapsed b x y = false → uncol b < fuel →
      (constrain_tile fuel b x y v).isSome = true := by
  intro fuel
  induction fuel with
  | zero => intro b x y v _ _ _ hu; exact absurd hu (Nat.not_lt_zero _)
  | succ fuel ih =>
    intro b x y v hx hy hnc hu
    rw [constrain_tile_succ]
    cases hcol : is_collapsed (setTile b (y * 9 + x) (getTile b x y &&& (4294967295 ^^^ (1 <<< v)))) x y with
    | false => simp only [Bool.false_eq_true, if_false]; rfl
    | true =>
      simp only [eq_self_iff_true, if_true]
      have ht : y * 9 + x < 81 := by omega
      have hne : maskEntropy (b (y * 9 + x)) ≠ 1 := is_collapsed_false_iff.1 hnc
      have hm1 : maskEntropy (getTile b x y &&& (4294967295 ^^^ (1 <<< v))) = 1 := by
        have := is_collapsed_iff.1 hcol
        rwa [setTile_self] at this
      have hlt := uncol_set_lt ht hne hm1
      exact constrain_list_some ih (peer_list x y) _ _ (peer_list_coords hx hy) (by omega)

/-- A successful `collapse_tile` determines the new state: the cascade
result together with the snapshot of the old tiles. -/
theorem collapse_tile_tiles {fuel : Nat} {s : WfcState} {x y v : Nat} {s2 : WfcState}
    (h : collapse_tile fuel s x y v = some s2) :
    constrain_peers fuel (setTile s.tiles (y * 9 + x) (1 <<< v)) x y v = some s2.tiles ∧
      s2.last_tiles = s.tiles := by
  rw [collapse_tile] at h
  cases hm : constrain_peers fuel (setTile s.tiles (y * 9 + x) (1 <<< v)) x y v with
  | none => rw [hm] at h; cases h
  | some t2 => rw [hm] at h; cases h; exact ⟨rfl, rfl⟩

theorem collapse_tile_cascades {fuel : Nat} {s : WfcState} {x y v : Nat} {s2 : WfcState}
    (h : collapse_tile fuel s x y v = some s2) :
    Cascades (setTile s.tiles (y * 9 + x) (1 <<< v)) s2.tiles := by
  have h2 := (collapse_tile_tiles h).1
  rw [constrain_peers] at h2
  exact constrain_list_cascades h2

/-- With fuel 82, `collapse_tile` always succeeds (for in-range
coordinates), and the target cell ends up holding exactly `1 << v`. -/
theorem collapse_tile_spec (s : WfcState) (x y v : Nat)
    (hx : x < 9) (hy : y < 9) (hv : v < 9) :
    ∃ s2, collapse_tile 82 s x y v = some s2 ∧
      s2.tiles (y * 9 + x) = 1 <<< v ∧
      s2.last_tiles = s.tiles ∧
      Cascades (setTile s.tiles (y * 9 + x) (1 <<< v)) s2.tiles := by
  have hu : uncol (setTile s.tiles (y * 9 + x) (1 <<< v)) < 82 :=
    lt_of_le_of_lt (uncol_le _) (by omega)
  have hs := constrain_list_some (fun b x y v hx hy => constrain_some 82 b x y v hx hy)
    (peer_list x y) (setTile s.tiles (y * 9 + x) (1 <<< v)) v (peer_list_coords hx hy) hu
  cases ht2 : constrain_list (constrain_tile 82)
      (setTile s.tiles (y * 9 + x) (1 <<< v)) (peer_list x y) v with
  | none => rw [ht2] at hs; cases hs
  | some t2 =>
    have hme : maskEntropy (setTile s.tiles (y * 9 + x) (1 <<< v) (y * 9 + x)) = 1 := by
      rw [setTile_self]; exact maskEntropy_shiftLeft_one v hv
    have hcas := constrain_list_cascades ht2
    refine ⟨⟨t2, s.tiles⟩, ?_, ?_, rfl, hcas⟩
    · rw [collapse_tile, constrain_peers, ht2]
    · have hkeep := hcas.2.1 (y * 9 + x) hme
      show t2 (y * 9 + x) = 1 <<< v
      rw [hkeep, setTile_self]

/-! ### Concrete states used in scenario theorems -/

/-- The state after program start (`tiles`, `last_tiles` zeroed) followed
by the initial `reset_tiles()` call in `main`. -/
def startState : WfcState := reset_tiles default

/-- The state after additionally collapsing cell (1,0) to value 0: a
successful, valid collapse whose cascade clears bit 0 from cell (0,0)
(via the box loop). -/
def exState1 : WfcState := (collapse_tile 82 startState 1 0 0).getD default

/-- A grid with a contradicted cell (mask 0), a two-candidate cell
(mask 3) and 79 collapsed cells (mask 1): total entropy 81 without
being fully collapsed. -/
def gapBoard : Board := fun i => if i = 0 then 0 else if i = 1 then 3 else 1

/-! ### Claims about undo, reset and the snapshot -/

/-- C9: calling `undo()` twice in succession produces exactly the same
board state as calling it once, and `undo` never modifies the snapshot
it restores from. -/
theorem undo_twice_eq_undo (s : WfcState) :
    undo_tiles (undo_tiles s) = undo_tiles s ∧
    (undo_tiles s).last_tiles = s.last_tiles :=
  ⟨rfl, rfl⟩

/-- C8: from any state, `reset(); collapse(0,0,0); undo()` leaves the
board in the all-candidates state: every cell mask is 0x1FF and the
board entropy is 729. -/
theorem reset_collapse_undo_roundtrip (s : WfcState) :
    ∃ t, collapse_tile 82 (reset_tiles s) 0 0 0 = some t ∧
      (∀ i, i < 81 → (undo_tiles t).tiles i = 0x1FF) ∧
      get_board_entropy (undo_tiles t).tiles = 729 := by
  obtain ⟨t, ht, -, hlast, -⟩ :=
    collapse_tile_spec (reset_tiles s) 0 0 0 (by omega) (by omega) (by omega)
  refine ⟨t, ht, ?_, ?_⟩
  · intro i _
    show t.last_tiles i = 0x1FF
    rw [hlast]; rfl
  · show get_board_entropy t.last_tiles = 729
    rw [hlast]
    show get_board_entropy (fun _ => 0x1FF) = 729
    decide

/-- C8 witness: the round trip applied to the zeroed start state. -/
theorem reset_collapse_undo_roundtrip_witness :
    ∃ t, collapse_tile 82 (reset_tiles default) 0 0 0 = some t ∧
      (∀ i, i < 81 → (undo_tiles t).tiles i = 0x1FF) ∧
      get_board_entropy (undo_tiles t).tiles = 729 :=
  reset_collapse_undo_roundtrip default

/-- C10: `reset_tiles` writes only the 81 cell masks and never the undo
snapshot; hence after a collapse, `reset(); undo()` restores the tiles
from immediately before that collapse, reaching back across the reset. -/
theorem reset_keeps_snapshot_undo_spans_reset {fuel : Nat} (s s2 : WfcState) (x y v : Nat)
    (h : collapse_tile fuel s x y v = some s2) :
    (reset_tiles s2).last_tiles = s2.last_tiles ∧
    (undo_tiles (reset_tiles s2)).tiles = s.tiles := by
  refine ⟨rfl, ?_⟩
  show s2.last_tiles = s.tiles
  exact (collapse_tile_tiles h).2

/-- C10 witness: instantiated at the start state with the collapse of
cell (0,0) to value 0. -/
theorem reset_keeps_snapshot_undo_spans_reset_witness :
    ∃ s2, collapse_tile 82 startState 0 0 0 = some s2 ∧
      (reset_tiles s2).last_tiles = s2.last_tiles ∧
      (undo_tiles (reset_tiles s2)).tiles = startState.tiles := by
  obtain ⟨t, ht, -, -, -⟩ := collapse_tile_spec startState 0 0 0 (by omega) (by omega) (by omega)
  exact ⟨t, ht, reset_keeps_snapshot_undo_spans_reset startState t 0 0 0 ht⟩

/-! ### Claims about collapse validity checking (C3, C5) -/

/-- C3 counterexample: after `reset; collapse(1,0,0)`, bit 0 is not a
candidate of cell (0,0), yet `collapse(0,0,0)` does not fail: it
succeeds and overwrites the cell with mask 1, mutating the grid. -/
theorem collapse_invalid_value_mutates :
    collapse_tile 82 startState 1 0 0 = some exState1 ∧
    (exState1.tiles 0).testBit 0 = false ∧
    (collapse_tile 82 exState1 0 0 0).isSome = true ∧
    ((collapse_tile 82 exState1 0 0 0).getD default).tiles 0 = 1 ∧
    exState1.tiles 0 = 510 :=
  ⟨rfl, by decide, by decide, by decide, by decide⟩

/-- C3 (amended): `collapse_tile` performs no candidate-membership check
and has no error path: for in-range coordinates it always succeeds,
snapshots the old tiles, and forces the target mask to exactly `1 << v`
— even when bit `v` was not a candidate, in which case the grid is
mutated rather than left unchanged. -/
theorem collapse_no_validity_check (s : WfcState) (x y v : Nat)
    (hx : x < 9) (hy : y < 9) (hv : v < 9) :
    ∃ s2, collapse_tile 82 s x y v = some s2 ∧
      s2.tiles (y * 9 + x) = 1 <<< v ∧
      s2.last_tiles = s.tiles ∧
      ((s.tiles (y * 9 + x)).testBit v = false →
        s2.tiles (y * 9 + x) ≠ s.tiles (y * 9 + x)) := by
  obtain ⟨s2, h1, h2, h3, -⟩ := collapse_tile_spec s x y v hx hy hv
  refine ⟨s2, h1, h2, h3, ?_⟩
  intro hbit heq
  have : (s2.tiles (y * 9 + x)).testBit v = true := by
    rw [h2, Nat.one_shiftLeft]
    exact Nat.testBit_two_pow_self
  rw [heq, hbit] at this
  cases this

/-- C3 witness: the amended theorem at the start state. -/
theorem collapse_no_validity_check_witness :
    ∃ s2, collapse_tile 82 startState 0 0 0 = some s2 ∧
      s2.tiles (0 * 9 + 0) = 1 <<< 0 ∧
      s2.last_tiles = startState.tiles ∧
      ((startState.tiles (0 * 9 + 0)).testBit 0 = false →
        s2.tiles (0 * 9 + 0) ≠ startState.tiles (0 * 9 + 0)) :=
  collapse_no_validity_check startState 0 0 0 (by decide) (by decide) (by decide)

/-- C5 counterexample: collapsing cell (0,0) to value 0 while bit 0 is
cleared re-sets that bit — an operation that is neither reset nor undo
re-sets a cleared candidate bit. -/
theorem collapse_resets_cleared_bit :
    (exState1.tiles 0).testBit 0 = false ∧
    (collapse_tile 82 exState1 0 0 0).isSome = true ∧
    (((collapse_tile 82 exState1 0 0 0).getD default).tiles 0).testBit 0 = true := by
  refine ⟨by decide, by decide, ?_⟩
  have h1 : ((collapse_tile 82 exState1 0 0 0).getD default).tiles 0 = 1 := by decide
  rw [h1]
  decide

/-- C5 (amended): for every collapse whose value is currently a
candidate of the target cell, the whole operation including its cascade
only clears bits: any bit clear before is still clear after. -/
theorem collapse_monotone_of_valid {fuel : Nat} (s : WfcState) (x y v : Nat) (s2 : WfcState)
    (hbit : (s.tiles (y * 9 + x)).testBit v = true)
    (h : collapse_tile fuel s x y v = some s2) :
    ∀ i k, (s2.tiles i).testBit k = true → (s.tiles i).testBit k = true := by
  have hcas := collapse_tile_cascades h
  intro i k hk
  have h1 := hcas.1 i k hk
  by_cases hit : i = y * 9 + x
  · subst hit
    rw [setTile_self, Nat.one_shiftLeft, Nat.testBit_two_pow] at h1
    have hvk : v = k := of_decide_eq_true h1
    rw [← hvk]; exact hbit
  · rwa [setTile_ne _ _ _ hit] at h1

/-- C5 witness: the valid collapse of cell (0,0) to value 0 on the fresh
board only clears bits. -/
theorem collapse_monotone_of_valid_witness :
    (startState.tiles (0 * 9 + 0)).testBit 0 = true ∧
    ∀ i k, (((collapse_tile 82 startState 0 0 0).getD default).tiles i).testBit k = true →
      (startState.tiles i).testBit k = true :=
  ⟨by decide, @collapse_monotone_of_valid 82 startState 0 0 0
    ((collapse_tile 82 startState 0 0 0).getD default) (by decide) rfl⟩

/-! ### C1: the peer-skip defect in constrain_peers -/

/-- C1: the row/column loop of `constrain_peers` skips the whole
iteration when `i == x || i == y`, which drops the genuine row peer
`(y, y)` and column peer `(x, x)` whenever they fall outside the 3x3
box.  Concretely: on a fresh board, `collapse(0,4,0)` leaves bit 0 set
in the uncollapsed row peer (4,4) (and in the column peer (0,0)),
while correctly clearing it in the row peer (1,4). -/
theorem constrain_peers_misses_peers :
    ∃ t, collapse_tile 82 startState 0 4 0 = some t ∧
      is_collapsed startState.tiles 4 4 = false ∧
      is_collapsed startState.tiles 0 0 = false ∧
      (t.tiles (4 * 9 + 4)).testBit 0 = true ∧
      (t.tiles (0 * 9 + 0)).testBit 0 = true ∧
      (t.tiles (4 * 9 + 1)).testBit 0 = false :=
  ⟨(collapse_tile 82 startState 0 4 0).getD default,
    rfl, by decide, by decide, by decide, by decide, by decide⟩

/-! ### C7: get_collapsed_value has no entropy guard -/

/-- C7 counterexample: on the fresh board every cell has entropy 9
(more than one bit set), yet `get_collapsed_value(0,0)` does not fail
with `InvalidState`: it computes the logarithm and returns the garbage
index 8. -/
theorem get_collapsed_value_no_guard :
    get_tile_entropy startState.tiles 0 = 9 ∧
    get_collapsed_value startState.tiles 0 0 = 8 := by
  refine ⟨by decide, ?_⟩
  have hm : getTile startState.tiles 0 0 % 512 = 511 := by decide
  rw [get_collapsed_value, hm, Nat.log2_eq_log_two]
  exact Nat.log_eq_of_pow_le_of_lt_pow (by norm_num) (by norm_num)

/-- C7 (amended): `get_collapsed_value` performs no guard at all: for
every cell whose masked value is non-zero it returns the floor of the
base-2 logarithm — the index (at most 8) of the highest set bit among
bits 0..8, a garbage index when several bits are set — rather than an
`InvalidState` error; for a zero masked value the C computation
(`(int) log2(0)`) is undefined. -/
theorem get_collapsed_value_highest_bit (b : Board) (x y : Nat)
    (h : 0 < getTile b x y % 512) :
    get_collapsed_value b x y ≤ 8 ∧
    (getTile b x y % 512).testBit (get_collapsed_value b x y) = true ∧
    ∀ j, get_collapsed_value b x y < j → (getTile b x y % 512).testBit j = false := by
  have hlt : getTile b x y % 512 < 512 := Nat.mod_lt _ (by omega)
  have hne : getTile b x y % 512 ≠ 0 := Nat.pos_iff_ne_zero.1 h
  rw [get_collapsed_value, Nat.log2_eq_log_two]
  have hpow : 2 ^ Nat.log 2 (getTile b x y % 512) ≤ getTile b x y % 512 :=
    Nat.pow_log_le_self 2 hne
  have hpow2 : getTile b x y % 512 < 2 ^ (Nat.log 2 (getTile b x y % 512) + 1) :=
    Nat.lt_pow_succ_log_self (by omega) _
  have hle : Nat.log 2 (getTile b x y % 512) ≤ 8 := by
    by_contra hgt
    have h9 : 9 ≤ Nat.log 2 (getTile b x y % 512) := by omega
    have : (2 : Nat) ^ 9 ≤ 2 ^ Nat.log 2 (getTile b x y % 512) :=
      Nat.pow_le_pow_right (by omega) h9
    omega
  refine ⟨hle, ?_, ?_⟩
  · rw [Nat.testBit_to_div_mod]
    have hdiv : getTile b x y % 512 / 2 ^ Nat.log 2 (getTile b x y % 512) = 1 := by
      have h1 : 1 ≤ getTile b x y % 512 / 2 ^ Nat.log 2 (getTile b x y % 512) :=
        (Nat.one_le_div_iff (Nat.pos_pow_of_pos _ (by omega))).2 hpow
      have h2 : getTile b x y % 512 / 2 ^ Nat.log 2 (getTile b x y % 512) < 2 := by
        rw [Nat.div_lt_iff_lt_mul (Nat.pos_pow_of_pos _ (by omega))]
        calc getTile b x y % 512 < 2 ^ (Nat.log 2 (getTile b x y % 512) + 1) := hpow2
        _ = 2 ^ Nat.log 2 (getTile b x y % 512) * 2 := by rw [Nat.pow_succ]
        _ = 2 * 2 ^ Nat.log 2 (getTile b x y % 512) := Nat.mul_comm _ _
      omega
    rw [hdiv]
    decide
  · intro j hj
    apply Nat.testBit_lt_two_pow
    calc getTile b x y % 512 < 2 ^ (Nat.log 2 (getTile b x y % 512) + 1) := hpow2
    _ ≤ 2 ^ j := Nat.pow_le_pow_right (by omega) (by omega)

/-- C7 witness: the amended statement at the fresh board's cell (0,0),
whose mask 0x1FF has highest set bit 8. -/
theorem get_collapsed_value_highest_bit_witness :
    0 < getTile startState.tiles 0 0 % 512 ∧
    (get_collapsed_value startState.tiles 0 0 ≤ 8 ∧
      (getTile startState.tiles 0 0 % 512).testBit
        (get_collapsed_value startState.tiles 0 0) = true ∧
      ∀ j, get_collapsed_value startState.tiles 0 0 < j →
        (getTile startState.tiles 0 0 % 512).testBit j = false) :=
  ⟨by decide, get_collapsed_value_highest_bit startState.tiles 0 0 (by decide)⟩

/-! ### C4: board entropy 81 versus full collapse -/

/-- C4 counterexample: a grid with a contradicted cell (entropy 0) and a
two-candidate cell (entropy 2) has board entropy 81 without every cell
having exactly one candidate. -/
theorem board_entropy_81_not_collapsed :
    get_board_entropy gapBoard = 81 ∧
    get_tile_entropy gapBoard 0 = 0 ∧
    get_tile_entropy gapBoard 1 = 2 ∧
    is_collapsed gapBoard 0 0 = false := by
  exact ⟨by decide, by decide, by decide, by decide⟩

theorem length_le_sum (l : List Nat) (h : ∀ a ∈ l, 1 ≤ a) : l.length ≤ l.sum := by
  induction l with
  | nil => simp
  | cons a t ih =>
    rw [List.length_cons, List.sum_cons]
    have ha := h a (List.mem_cons_self a t)
    have ht := ih (fun b hb => h b (List.mem_cons_of_mem _ hb))
    omega

theorem sum_eq_length_iff (l : List Nat) (h : ∀ a ∈ l, 1 ≤ a) :
    l.sum = l.length ↔ ∀ a ∈ l, a = 1 := by
  induction l with
  | nil => simp
  | cons a t ih =>
    rw [List.length_cons, List.sum_cons]
    have ha := h a (List.mem_cons_self a t)
    have ht := length_le_sum t (fun b hb => h b (List.mem_cons_of_mem _ hb))
    have iht := ih (fun b hb => h b (List.mem_cons_of_mem _ hb))
    constructor
    · intro hsum
      have h1 : a = 1 ∧ t.sum = t.length := by
        have hts : t.length ≤ t.sum := ht
        omega
      intro b hb
      rcases List.mem_cons.1 hb with rfl | hbt
      · exact h1.1
      · exact (iht.1 h1.2) b hbt
    · intro hall
      have h1 : a = 1 := hall a (List.mem_cons_self a t)
      have h2 : t.sum = t.length := iht.2 (fun b hb => hall b (List.mem_cons_of_mem _ hb))
      omega

/-- C4 (amended): provided every cell still has at least one candidate
(true of every board reachable once `reset` has run), the board entropy
equals 81 exactly when every one of the 81 cells has exactly one
candidate bit; the implication from full collapse to entropy 81 needs no
hypothesis, but the converse fails on grids containing an empty mask. -/
theorem board_entropy_eq_81_iff (b : Board)
    (hnz : ∀ i, i < 81 → 1 ≤ get_tile_entropy b i) :
    get_board_entropy b = 81 ↔ ∀ i, i < 81 → get_tile_entropy b i = 1 := by
  have hlen : ((List.range 81).map (fun i => get_tile_entropy b i)).length = 81 := by simp
  have hmem : ∀ a ∈ (List.range 81).map (fun i => get_tile_entropy b i), 1 ≤ a := by
    intro a ha
    rw [List.mem_map] at ha
    rcases ha with ⟨i, hi, rfl⟩
    exact hnz i (List.mem_range.1 hi)
  have hiff := sum_eq_length_iff _ hmem
  rw [get_board_entropy]
  constructor
  · intro h81 i hi
    have hsl : ((List.range 81).map (fun i => get_tile_entropy b i)).sum =
        ((List.range 81).map (fun i => get_tile_entropy b i)).length := by
      rw [hlen]; exact h81
    exact (hiff.1 hsl) _ (List.mem_map_of_mem _ (List.mem_range.2 hi))
  · intro hall
    have hsl : ((List.range 81).map (fun i => get_tile_entropy b i)).sum =
        ((List.range 81).map (fun i => get_tile_entropy b i)).length := by
      apply hiff.2
      intro a ha
      rw [List.mem_map] at ha
      rcases ha with ⟨i, hi, rfl⟩
      exact hall i (List.mem_range.1 hi)
    rw [hlen] at hsl
    exact hsl

/-- C4 witness: the amended equivalence at the fresh board (all masks
non-zero; entropy 729 is not 81 and indeed not every cell is collapsed). -/
theorem board_entropy_eq_81_iff_witness :
    (∀ i, i < 81 → 1 ≤ get_tile_entropy startState.tiles i) ∧
    (get_board_entropy startState.tiles = 81 ↔
      ∀ i, i < 81 → get_tile_entropy startState.tiles i = 1) :=
  ⟨by decide, board_entropy_eq_81_iff startState.tiles (by decide)⟩

/-! ### C6: the entropy sort of solve_board -/

theorem getD_set_ne {l : List Nat} {i p : Nat} (x : Nat) (h : i ≠ p) :
    (l.set i x).getD p 0 = l.getD p 0 := by
  rw [List.getD_eq_getElem?_getD, List.getD_eq_getElem?_getD, List.getElem?_set_ne h]

theorem getD_set_self {l : List Nat} {i : Nat} (x : Nat) (h : i < l.length) :
    (l.set i x).getD i 0 = x := by
  rw [List.getD_eq_getElem?_getD, List.getElem?_set_self h]
  rfl

theorem sort_step_length (b : Board) (a : List Nat) (i j : Nat) :
    (sort_step b a i j).length = a.length := by
  rw [sort_step]
  split
  · rfl
  · simp

/-- A swap touches only positions `i` and `j`. -/
theorem sort_step_getD_ne (b : Board) (a : List Nat) {i j p : Nat}
    (hpi : p ≠ i) (hpj : p ≠ j) :
    (sort_step b a i j).getD p 0 = a.getD p 0 := by
  rw [sort_step]
  split
  · rfl
  · rw [getD_set_ne _ (fun h => hpj h.symm), getD_set_ne _ (fun h => hpi h.symm)]

/-- A swap keeps every value in the list (positions `i`, `j` in range). -/
theorem sort_step_mem (b : Board) (a : List Nat) (i j : Nat)
    (hi : i < a.length) (hj : j < a.length) {k : Nat} (hk : k ∈ a) :
    k ∈ sort_step b a i j := by
  rw [sort_step]
  split
  · exact hk
  · rw [List.mem_iff_getElem?] at hk ⊢
    rcases hk with ⟨p, hp⟩
    by_cases hij : i = j
    · subst hij
      by_cases hpi : p = i
      · subst hpi
        refine ⟨p, ?_⟩
        rw [List.getElem?_set_self (by simpa using hi)]
        have : a.getD p 0 = k := by rw [List.getD_eq_getElem?_getD, hp]; rfl
        rw [this]
      · refine ⟨p, ?_⟩
        rw [List.getElem?_set_ne (fun h => hpi h.symm),
          List.getElem?_set_ne (fun h => hpi h.symm)]
        exact hp
    · by_cases hpi : p = i
      · subst hpi
        refine ⟨j, ?_⟩
        rw [List.getElem?_set_self (by simpa using hj)]
        have : a.getD p 0 = k := by rw [List.getD_eq_getElem?_getD, hp]; rfl
        rw [this]
      · by_cases hpj : p = j
        · subst hpj
          refine ⟨i, ?_⟩
          rw [List.getElem?_set_ne hpi, List.getElem?_set_self (by simpa using hi)]
          have : a.getD p 0 = k := by rw [List.getD_eq_getElem?_getD, hp]; rfl
          rw [this]
        · refine ⟨p, ?_⟩
          rw [List.getElem?_set_ne (fun h => hpj h.symm),
            List.getElem?_set_ne (fun h => hpi h.symm)]
          exact hp

theorem mem_drop_range {n m a : Nat} (h : a ∈ (List.range n).drop m) :
    m ≤ a ∧ a < n := by
  rw [List.mem_iff_getElem] at h
  rcases h with ⟨i, hi, he⟩
  rw [List.getElem_drop] at he
  rw [List.getElem_range] at he
  have hlen : m + i < n := by
    have := hi
    simp only [List.length_drop, List.length_range] at this
    omega
  omega

/-- If the entry at position `i` already has minimal entropy with respect
to every compared position, the inner loop performs no swap. -/
theorem foldl_sort_step_no_swap (b : Board) (i : Nat) :
    ∀ (js : List Nat) (a : List Nat),
      (∀ j ∈ js, get_tile_entropy b (a.getD i 0) ≤ get_tile_entropy b (a.getD j 0)) →
      js.foldl (fun a2 j => sort_step b a2 i j) a = a := by
  intro js
  induction js with
  | nil => intro a _; rfl
  | cons j rest ih =>
    intro a h
    rw [List.foldl_cons]
    have hstep : sort_step b a i j = a := by
      rw [sort_step, if_pos (h j (List.mem_cons_self _ _))]
    rw [hstep]
    exact ih a (fun q hq => h q (List.mem_cons_of_mem _ hq))

/-- One outer iteration of the sorting loop of `solve_board`. -/
def passStep (b : Board) (a : List Nat) (i : Nat) : List Nat :=
  ((List.range 81).drop (i + 1)).foldl (fun a2 j => sort_step b a2 i j) a

theorem sort_tiles_eq_foldl (b : Board) :
    sort_tiles b = (List.range 81).foldl (passStep b) (List.range 81) := rfl

/-- Pass `i` never touches positions strictly below `i`. -/
theorem passStep_getD_lt (b : Board) (a : List Nat) {i p : Nat} (hp : p < i) :
    (passStep b a i).getD p 0 = a.getD p 0 := by
  rw [passStep]
  generalize hjs : (List.range 81).drop (i + 1) = js
  have hmem : ∀ j ∈ js, i + 1 ≤ j := by
    intro j hj
    rw [← hjs] at hj
    exact (mem_drop_range hj).1
  clear hjs
  induction js generalizing a with
  | nil => rfl
  | cons j rest ih =>
    rw [List.foldl_cons]
    rw [ih _ (fun q hq => hmem q (List.mem_cons_of_mem _ hq))]
    have hj := hmem j (List.mem_cons_self _ _)
    exact sort_step_getD_ne b a (by omega) (by omega)

theorem foldl_passStep_getD (b : Board) :
    ∀ (is : List Nat) (a : List Nat) (p : Nat), (∀ i ∈ is, p < i) →
      (is.foldl (passStep b) a).getD p 0 = a.getD p 0 := by
  intro is
  induction is with
  | nil => intro a p _; rfl
  | cons i rest ih =>
    intro a p h
    rw [List.foldl_cons]
    rw [ih _ _ (fun q hq => h q (List.mem_cons_of_mem _ hq))]
    exact passStep_getD_lt b a (h i (List.mem_cons_self _ _))

/-- The state after reset followed by a valid collapse of cell (2,0) to
value 0 — reachable by one user click on a fresh board. -/
def exState2 : WfcState := (collapse_tile 82 startState 2 0 0).getD default

theorem sort_three_passes :
    passStep exState2.tiles (passStep exState2.tiles
      (passStep exState2.tiles (List.range 81) 0) 1) 2 =
      2 :: 1 :: 0 :: List.range' 3 78 := by
  have hdrop1 : (List.range 81).drop 1 = 1 :: 2 :: List.range' 3 78 := by decide
  have hstep1 : sort_step exState2.tiles (List.range 81) 0 1 = List.range 81 := by
    rw [sort_step, if_pos (by decide)]
  have hstep2 : sort_step exState2.tiles (List.range 81) 0 2 =
      2 :: 1 :: 0 :: List.range' 3 78 := by
    rw [sort_step, if_neg (by decide)]
    decide
  have hpass0 : passStep exState2.tiles (List.range 81) 0 =
      2 :: 1 :: 0 :: List.range' 3 78 := by
    rw [passStep, hdrop1, List.foldl_cons, hstep1, List.foldl_cons, hstep2]
    exact foldl_sort_step_no_swap _ _ _ _ (by decide)
  have hdrop2 : (List.range 81).drop 2 = 2 :: List.range' 3 78 := by decide
  have hpass1 : passStep exState2.tiles (2 :: 1 :: 0 :: List.range' 3 78) 1 =
      2 :: 1 :: 0 :: List.range' 3 78 := by
    rw [passStep, hdrop2]
    exact foldl_sort_step_no_swap _ _ _ _ (by decide)
  have hdrop3 : (List.range 81).drop 3 = List.range' 3 78 := by decide
  have hpass2 : passStep exState2.tiles (2 :: 1 :: 0 :: List.range' 3 78) 2 =
      2 :: 1 :: 0 :: List.range' 3 78 := by
    rw [passStep, hdrop3]
    exact foldl_sort_step_no_swap _ _ _ _ (by decide)
  rw [hpass0, hpass1, hpass2]

theorem sort_tiles_prefix :
    (sort_tiles exState2.tiles).getD 0 0 = 2 ∧
    (sort_tiles exState2.tiles).getD 1 0 = 1 ∧
    (sort_tiles exState2.tiles).getD 2 0 = 0 := by
  have hcond : ∀ q ∈ List.range' 3 78, (0 : Nat) < q ∧ (1 : Nat) < q ∧ (2 : Nat) < q := by
    intro q hq
    have := List.mem_range'_1.1 hq
    omega
  refine ⟨?_, ?_, ?_⟩
  · show ((0 :: 1 :: 2 :: List.range' 3 78).foldl (passStep exState2.tiles)
      (List.range 81)).getD 0 0 = 2
    rw [List.foldl_cons, List.foldl_cons, List.foldl_cons, sort_three_passes]
    rw [foldl_passStep_getD _ _ _ _ (fun q hq => (hcond q hq).1)]
    decide
  · show ((0 :: 1 :: 2 :: List.range' 3 78).foldl (passStep exState2.tiles)
      (List.range 81)).getD 1 0 = 1
    rw [List.foldl_cons, List.foldl_cons, List.foldl_cons, sort_three_passes]
    rw [foldl_passStep_getD _ _ _ _ (fun q hq => (hcond q hq).2.1)]
    decide
  · show ((0 :: 1 :: 2 :: List.range' 3 78).foldl (passStep exState2.tiles)
      (List.range 81)).getD 2 0 = 0
    rw [List.foldl_cons, List.foldl_cons, List.foldl_cons, sort_three_passes]
    rw [foldl_passStep_getD _ _ _ _ (fun q hq => (hcond q hq).2.2)]
    decide

/-- C6 counterexample: on the board reached from reset by the single
valid collapse of cell (2,0), cells 0 and 1 are both uncollapsed with
equal entropy 8, yet the sort places index 1 (position 1) before index 0
(position 2): equal-entropy indices do not keep ascending order, so the
sort is not stable, and the first uncollapsed cell in sorted order is
cell 1 although cell 0 has the same minimal entropy and a lower linear
index. -/
theorem sort_tiles_not_stable :
    collapse_tile 82 startState 2 0 0 = some exState2 ∧
    get_tile_entropy exState2.tiles 0 = 8 ∧
    get_tile_entropy exState2.tiles 1 = 8 ∧
    is_collapsed exState2.tiles 0 0 = false ∧
    is_collapsed exState2.tiles 1 0 = false ∧
    (sort_tiles exState2.tiles).getD 1 0 = 1 ∧
    (sort_tiles exState2.tiles).getD 2 0 = 0 :=
  ⟨rfl, by decide, by decide, by decide, by decide,
    sort_tiles_prefix.2.1, sort_tiles_prefix.2.2⟩

/-- The running minimum computed by the first outer iteration of the
sort: keep the current best, replace it only on strict improvement. -/
def bestFold (b : Board) (h : Nat) (l : List Nat) : Nat :=
  l.foldl (fun best j => if get_tile_entropy b best ≤ get_tile_entropy b j then best else j) h

theorem bestFold_spec (b : Board) :
    ∀ (l : List Nat) (h : Nat), List.Pairwise (· < ·) (h :: l) →
      (bestFold b h l ∈ h :: l) ∧
      (∀ i ∈ h :: l, get_tile_entropy b (bestFold b h l) ≤ get_tile_entropy b i) ∧
      (∀ i ∈ h :: l, i < bestFold b h l →
        get_tile_entropy b (bestFold b h l) < get_tile_entropy b i) := by
  intro l
  induction l with
  | nil =>
    intro h _
    refine ⟨List.mem_cons_self _ _, ?_, ?_⟩
    · intro i hi
      rcases List.mem_cons.1 hi with rfl | hi'
      · exact le_refl _
      · cases hi'
    · intro i hi hlt
      rcases List.mem_cons.1 hi with rfl | hi'
      · exact absurd hlt (lt_irrefl _)
      · cases hi'
  | cons j rest ih =>
    intro h hpw
    rw [List.pairwise_cons] at hpw
    obtain ⟨hh, hpw2⟩ := hpw
    have hpwjr := hpw2
    rw [List.pairwise_cons] at hpw2
    obtain ⟨hj, hpw3⟩ := hpw2
    have hbf : bestFold b h (j :: rest) =
        bestFold b (if get_tile_entropy b h ≤ get_tile_entropy b j then h else j) rest := rfl
    by_cases hc : get_tile_entropy b h ≤ get_tile_entropy b j
    · have hpw' : List.Pairwise (· < ·) (h :: rest) := by
        rw [List.pairwise_cons]
        exact ⟨fun a ha => hh a (List.mem_cons_of_mem _ ha), hpw3⟩
      obtain ⟨hm, hmin, hstrict⟩ := ih h hpw'
      rw [hbf, if_pos hc]
      refine ⟨?_, ?_, ?_⟩
      · rcases List.mem_cons.1 hm with he | hm'
        · rw [he]; exact List.mem_cons_self _ _
        · exact List.mem_cons_of_mem _ (List.mem_cons_of_mem _ hm')
      · intro i hi
        rcases List.mem_cons.1 hi with rfl | hi'
        · exact hmin _ (List.mem_cons_self _ _)
        · rcases List.mem_cons.1 hi' with rfl | hi''
          · exact le_trans (hmin _ (List.mem_cons_self _ _)) hc
          · exact hmin _ (List.mem_cons_of_mem _ hi'')
      · intro i hi hlt
        rcases List.mem_cons.1 hi with rfl | hi'
        · exact hstrict _ (List.mem_cons_self _ _) hlt
        · rcases List.mem_cons.1 hi' with rfl | hi''
          · have hhj : h < i := hh i (List.mem_cons_self _ _)
            have hhb : h < bestFold b h rest := by omega
            have hsb := hstrict h (List.mem_cons_self _ _) hhb
            exact lt_of_lt_of_le hsb hc
          · exact hstrict _ (List.mem_cons_of_mem _ hi'') hlt
    · have hpw' : List.Pairwise (· < ·) (j :: rest) := hpwjr
      obtain ⟨hm, hmin, hstrict⟩ := ih j hpw'
      rw [hbf, if_neg hc]
      have hjh : get_tile_entropy b j < get_tile_entropy b h := by omega
      refine ⟨?_, ?_, ?_⟩
      · exact List.mem_cons_of_mem _ hm
      · intro i hi
        rcases List.mem_cons.1 hi with rfl | hi'
        · exact le_of_lt (lt_of_le_of_lt (hmin _ (List.mem_cons_self _ _)) hjh)
        · exact hmin _ hi'
      · intro i hi hlt
        rcases List.mem_cons.1 hi with rfl | hi'
        · exact lt_of_le_of_lt (hmin _ (List.mem_cons_self _ _)) hjh
        · exact hstrict _ hi' hlt

/-- The first pass of the sort places at position 0 exactly the running
minimum of the entropies, as long as the compared positions still hold
their initial values. -/
theorem pass0_head (b : Board) :
    ∀ (js : List Nat) (a : List Nat),
      0 < a.length → (∀ j ∈ js, 1 ≤ j ∧ j < a.length) →
      (∀ j ∈ js, a.getD j 0 = j) → List.Pairwise (· < ·) js →
      (js.foldl (fun a2 j => sort_step b a2 0 j) a).getD 0 0 =
        bestFold b (a.getD 0 0) js := by
  intro js
  induction js with
  | nil => intro a _ _ _ _; rfl
  | cons j rest ih =>
    intro a hlen hb hv hpw
    rw [List.pairwise_cons] at hpw
    obtain ⟨hjr, hpw'⟩ := hpw
    obtain ⟨hj1, hjlen⟩ := hb j (List.mem_cons_self _ _)
    have hvj : a.getD j 0 = j := hv j (List.mem_cons_self _ _)
    rw [List.foldl_cons]
    have hbf : bestFold b (a.getD 0 0) (j :: rest) =
        bestFold b (if get_tile_entropy b (a.getD 0 0) ≤ get_tile_entropy b j
          then a.getD 0 0 else j) rest := rfl
    by_cases hc : get_tile_entropy b (a.getD 0 0) ≤ get_tile_entropy b (a.getD j 0)
    · have hss : sort_step b a 0 j = a := by rw [sort_step, if_pos hc]
      rw [hvj] at hc
      rw [hss, hbf, if_pos hc]
      exact ih a hlen (fun q hq => hb q (List.mem_cons_of_mem _ hq))
        (fun q hq => hv q (List.mem_cons_of_mem _ hq)) hpw'
    · have hss : sort_step b a 0 j = (a.set 0 (a.getD j 0)).set j (a.getD 0 0) := by
        rw [sort_step, if_neg hc]
      have hlen2 : ((a.set 0 (a.getD j 0)).set j (a.getD 0 0)).length = a.length := by simp
      have hgd0 : ((a.set 0 (a.getD j 0)).set j (a.getD 0 0)).getD 0 0 = j := by
        rw [getD_set_ne _ (by omega), getD_set_self _ (by simpa using hlen), hvj]
      have hrest : ∀ q ∈ rest, ((a.set 0 (a.getD j 0)).set j (a.getD 0 0)).getD q 0 = q := by
        intro q hq
        have hql := hjr q hq
        rw [getD_set_ne _ (by omega), getD_set_ne _ (by omega)]
        exact hv q (List.mem_cons_of_mem _ hq)
      rw [hvj] at hc
      rw [hss, hbf, if_neg hc]
      have hout := ih ((a.set 0 (a.getD j 0)).set j (a.getD 0 0))
        (by omega)
        (fun q hq => ⟨(hb q (List.mem_cons_of_mem _ hq)).1,
          by rw [hlen2]; exact (hb q (List.mem_cons_of_mem _ hq)).2⟩)
        hrest hpw'
      rw [hout, hgd0]

/-- C6 (amended): the exchange sort is not stable, but position 0 of the
sorted order always holds the lowest-index cell of minimal entropy over
all 81 cells: its entropy is minimal, and every cell with a smaller
linear index has strictly larger entropy. -/
theorem sort_tiles_head (b : Board) :
    (sort_tiles b).getD 0 0 < 81 ∧
    (∀ i, i < 81 → get_tile_entropy b ((sort_tiles b).getD 0 0) ≤ get_tile_entropy b i) ∧
    ∀ i, i < (sort_tiles b).getD 0 0 →
      get_tile_entropy b ((sort_tiles b).getD 0 0) < get_tile_entropy b i := by
  have hsplit0 : ∀ q ∈ List.range' 1 80, (0 : Nat) < q := fun q hq => (List.mem_range'_1.1 hq).1
  have hdrop : (List.range 81).drop 1 = List.range' 1 80 := by decide
  have hhead : (sort_tiles b).getD 0 0 = bestFold b 0 (List.range' 1 80) := by
    show ((0 :: List.range' 1 80).foldl (passStep b) (List.range 81)).getD 0 0 = _
    rw [List.foldl_cons, foldl_passStep_getD _ _ _ _ hsplit0, passStep, hdrop]
    rw [pass0_head b (List.range' 1 80) (List.range 81) (by decide)
      (fun j hj => ⟨(List.mem_range'_1.1 hj).1,
        by have := List.mem_range'_1.1 hj; simp only [List.length_range]; omega⟩)
      (fun j hj => by
        have := List.mem_range'_1.1 hj
        rw [List.getD_eq_getElem?_getD, List.getElem?_range (by omega)]
        rfl)
      (List.pairwise_lt_range' 1 80)]
    rw [show (List.range 81).getD 0 0 = 0 from by decide]
  have hpw : List.Pairwise (· < ·) ((0 : Nat) :: List.range' 1 80) := by
    rw [List.pairwise_cons]
    exact ⟨hsplit0, List.pairwise_lt_range' 1 80⟩
  obtain ⟨hm, hmin, hstrict⟩ := bestFold_spec b (List.range' 1 80) 0 hpw
  have hiff : ∀ i : Nat, i ∈ (0 : Nat) :: List.range' 1 80 ↔ i < 81 := by
    intro i
    rw [List.mem_cons, List.mem_range'_1]
    omega
  rw [hhead]
  refine ⟨(hiff _).1 hm, fun i hi => hmin i ((hiff i).2 hi), fun i hlt => ?_⟩
  have hb81 : bestFold b 0 (List.range' 1 80) < 81 := (hiff _).1 hm
  exact hstrict i ((hiff i).2 (by omega)) hlt

/-- C6 witness: the amended head property at the fresh board. -/
theorem sort_tiles_head_witness :
    (sort_tiles startState.tiles).getD 0 0 < 81 ∧
    (∀ i, i < 81 → get_tile_entropy startState.tiles ((sort_tiles startState.tiles).getD 0 0) ≤
      get_tile_entropy startState.tiles i) ∧
    ∀ i, i < (sort_tiles startState.tiles).getD 0 0 →
      get_tile_entropy startState.tiles ((sort_tiles startState.tiles).getD 0 0) <
        get_tile_entropy startState.tiles i :=
  sort_tiles_head startState.tiles

/-! ### C2: termination and success of solve_board -/

theorem sort_step_mem_rev (b : Board) (a : List Nat) (i j : Nat)
    (hi : i < a.length) (hj : j < a.length) {k : Nat}
    (hk : k ∈ sort_step b a i j) : k ∈ a := by
  rw [sort_step] at hk
  split at hk
  · exact hk
  · rw [List.mem_iff_getElem?] at hk
    rcases hk with ⟨p, hp⟩
    by_cases hpj : p = j
    · subst hpj
      rw [List.getElem?_set_self (by simpa using hj)] at hp
      have : a.getD i 0 = k := Option.some.inj hp
      rw [← this, List.getD_eq_getElem?_getD, List.getElem?_eq_getElem hi]
      exact List.getElem_mem hi
    · by_cases hpi : p = i
      · subst hpi
        rw [List.getElem?_set_ne (fun h => hpj h.symm),
          List.getElem?_set_self (by simpa using hi)] at hp
        have : a.getD j 0 = k := Option.some.inj hp
        rw [← this, List.getD_eq_getElem?_getD, List.getElem?_eq_getElem hj]
        exact List.getElem_mem hj
      · rw [List.getElem?_set_ne (fun h => hpj h.symm),
          List.getElem?_set_ne (fun h => hpi h.symm)] at hp
        exact List.mem_iff_getElem?.2 ⟨p, hp⟩

theorem foldl_preserve {α : Type} {step : List Nat → α → List Nat} (P : List Nat → Prop) :
    ∀ (l : List α) (a : List Nat), P a → (∀ a2 j, P a2 → j ∈ l → P (step a2 j)) →
      P (l.foldl step a) := by
  intro l
  induction l with
  | nil => intro a ha _; exact ha
  | cons j rest ih =>
    intro a ha hstep
    rw [List.foldl_cons]
    exact ih _ (hstep a j ha (List.mem_cons_self _ _))
      (fun a2 q h2 hq => hstep a2 q h2 (List.mem_cons_of_mem _ hq))

/-- The sorting pass permutes the 81 indices: the result has length 81
and contains exactly the numbers 0..80. -/
theorem sort_tiles_mem (b : Board) :
    (sort_tiles b).length = 81 ∧ ∀ k, k ∈ sort_tiles b ↔ k < 81 := by
  have hstep : ∀ (i : Nat) (a2 : List Nat) (j : Nat),
      (a2.length = 81 ∧ ∀ k, k ∈ a2 ↔ k < 81) → i < 81 → j < 81 →
      ((sort_step b a2 i j).length = 81 ∧ ∀ k, k ∈ sort_step b a2 i j ↔ k < 81) := by
    intro i a2 j ⟨hl, hm⟩ hi hj
    refine ⟨by rw [sort_step_length, hl], fun k => ⟨fun hk => ?_, fun hk => ?_⟩⟩
    · exact (hm k).1 (sort_step_mem_rev b a2 i j (by omega) (by omega) hk)
    · exact sort_step_mem b a2 i j (by omega) (by omega) ((hm k).2 hk)
  have hpass : ∀ (a : List Nat) (i : Nat),
      (a.length = 81 ∧ ∀ k, k ∈ a ↔ k < 81) → i < 81 →
      ((passStep b a i).length = 81 ∧ ∀ k, k ∈ passStep b a i ↔ k < 81) := by
    intro a i hP hi
    rw [passStep]
    apply foldl_preserve (fun a2 => a2.length = 81 ∧ ∀ k, k ∈ a2 ↔ k < 81) _ _ hP
    intro a2 j h2 hjmem
    exact hstep i a2 j h2 hi (mem_drop_range hjmem).2
  have hfinal := foldl_preserve (fun a2 => a2.length = 81 ∧ ∀ k, k ∈ a2 ↔ k < 81)
    (List.range 81) (List.range 81)
    ⟨by simp, fun k => by rw [List.mem_range]⟩
    (fun a2 i h2 himem => hpass a2 i h2 (List.mem_range.1 himem))
  exact hfinal

/-- The cyclic candidate scan succeeds whenever some low bit is set, and
returns a set bit index below 9. -/
theorem pick_value_spec {m : Nat} (r : Nat) (hr : r < 9)
    (hm : ∃ k, k < 9 ∧ m.testBit k = true) :
    ∃ v, pick_value m r = some v ∧ v < 9 ∧ m.testBit v = true := by
  rcases hm with ⟨k, hk, hbit⟩
  have hkmem : k ∈ (List.range 9).map (fun d => (r + d) % 9) := by
    rw [List.mem_map]
    refine ⟨(k + 9 - r) % 9, List.mem_range.2 (Nat.mod_lt _ (by omega)), ?_⟩
    omega
  cases hf : pick_value m r with
  | none =>
    rw [pick_value, List.find?_eq_none] at hf
    exact absurd hbit (by simpa using hf k hkmem)
  | some v =>
    rw [pick_value] at hf
    have hvp : m.testBit v = true := List.find?_some hf
    have hvmem := List.mem_of_find?_eq_some hf
    have hv9 : v < 9 := by
      rcases List.mem_map.1 hvmem with ⟨d, -, rfl⟩
      exact Nat.mod_lt _ (by omega)
    exact ⟨v, rfl, hv9, hvp⟩

/-- A collapse performed by the solver pass: the target was uncollapsed,
so it succeeds, keeps every mask non-empty, collapses the target, and
leaves every already-collapsed cell untouched. -/
theorem collapse_tile_pass {s : WfcState} {x y v : Nat} (hx : x < 9) (hy : y < 9)
    (hv : v < 9) (hnz : NZmask s.tiles)
    (hnc : maskEntropy (s.tiles (y * 9 + x)) ≠ 1) :
    ∃ s2, collapse_tile 82 s x y v = some s2 ∧ NZmask s2.tiles ∧
      maskEntropy (s2.tiles (y * 9 + x)) = 1 ∧
      ∀ i, maskEntropy (s.tiles i) = 1 → s2.tiles i = s.tiles i := by
  obtain ⟨s2, h1, h2, -, hcas⟩ := collapse_tile_spec s x y v hx hy hv
  have hm1 : maskEntropy (1 <<< v) = 1 := maskEntropy_shiftLeft_one v hv
  refine ⟨s2, h1, ?_, ?_, ?_⟩
  · apply hcas.2.2
    intro i hi
    by_cases hit : i = y * 9 + x
    · subst hit
      rw [setTile_self, hm1]
    · rw [setTile_ne _ _ _ hit]
      exact hnz i hi
  · rw [h2]
    exact hm1
  · intro i hi
    have hit : i ≠ y * 9 + x := fun he => hnc (he ▸ hi)
    have ht1 : setTile s.tiles (y * 9 + x) (1 <<< v) i = s.tiles i := setTile_ne _ _ _ hit
    have hi1 : maskEntropy (setTile s.tiles (y * 9 + x) (1 <<< v) i) = 1 := by
      rw [ht1]; exact hi
    rw [hcas.2.1 i hi1, ht1]

/-- The collapsing loop of the solver: walking any list of in-range
indices from a board with no empty masks succeeds, preserves that
invariant, collapses every visited cell, and leaves already-collapsed
cells untouched. -/
theorem solve_pass_spec (rand : Nat → Nat) :
    ∀ (l : List Nat) (rc : Nat) (s : WfcState),
      (∀ k ∈ l, k < 81) → NZmask s.tiles →
      ∃ s2 rc2, solve_pass rand rc s l = some (s2, rc2) ∧
        NZmask s2.tiles ∧
        (∀ k ∈ l, maskEntropy (s2.tiles k) = 1) ∧
        (∀ i, maskEntropy (s.tiles i) = 1 → s2.tiles i = s.tiles i) := by
  intro l
  induction l with
  | nil =>
    intro rc s _ hnz
    exact ⟨s, rc, rfl, hnz, by simp, fun i _ => rfl⟩
  | cons idx rest ih =>
    intro rc s hbound hnz
    have hidx : idx < 81 := hbound idx (List.mem_cons_self _ _)
    have hx : idx % 9 < 9 := Nat.mod_lt _ (by omega)
    have hy : idx / 9 < 9 := by omega
    have hidxeq : idx / 9 * 9 + idx % 9 = idx := by
      rw [Nat.mul_comm]; exact Nat.div_add_mod idx 9
    cases hc : is_collapsed s.tiles (idx % 9) (idx / 9) with
    | true =>
      have hsp : solve_pass rand rc s (idx :: rest) = solve_pass rand rc s rest := by
        rw [solve_pass, hc]
        simp only [eq_self_iff_true, if_true]
      obtain ⟨s2, rc2, heq, hnz2, hall, hkeep⟩ :=
        ih rc s (fun k hk => hbound k (List.mem_cons_of_mem _ hk)) hnz
      refine ⟨s2, rc2, by rw [hsp, heq], hnz2, ?_, hkeep⟩
      intro k hk
      rcases List.mem_cons.1 hk with rfl | hk'
      · have h1 : maskEntropy (s.tiles k) = 1 := by
          have := is_collapsed_iff.1 hc
          rwa [hidxeq] at this
        rw [hkeep _ h1]; exact h1
      · exact hall k hk'
    | false =>
      have hent : 1 ≤ maskEntropy (s.tiles idx) := hnz idx hidx
      have hbits : ∃ k, k < 9 ∧ (s.tiles idx).testBit k = true := maskEntropy_pos_iff.1 hent
      have hget : getTile s.tiles (idx % 9) (idx / 9) = s.tiles idx := by
        rw [getTile, hidxeq]
      obtain ⟨v, hvf, hv9, -⟩ :=
        pick_value_spec (rand rc % 9) (Nat.mod_lt _ (by omega)) hbits
      have hnc : maskEntropy (s.tiles (idx / 9 * 9 + idx % 9)) ≠ 1 := by
        have := is_collapsed_false_iff.1 hc
        exact this
      obtain ⟨s2, hceq, hnz2, htarget, hkeep2⟩ := collapse_tile_pass hx hy hv9 hnz hnc
      have hsp : solve_pass rand rc s (idx :: rest) = solve_pass rand (rc + 1) s2 rest := by
        rw [solve_pass, hc]
        simp only [Bool.false_eq_true, if_false, hget, hvf, hceq]
      obtain ⟨s3, rc3, heq3, hnz3, hall3, hkeep3⟩ :=
        ih (rc + 1) s2 (fun k hk => hbound k (List.mem_cons_of_mem _ hk)) hnz2
      refine ⟨s3, rc3, by rw [hsp, heq3], hnz3, ?_, ?_⟩
      · intro k hk
        rcases List.mem_cons.1 hk with rfl | hk'
        · have h1 : maskEntropy (s2.tiles k) = 1 := by
            have := htarget
            rwa [hidxeq] at this
          rw [hkeep3 _ h1]; exact h1
        · exact hall3 k hk'
      · intro i hi
        have hs2 : s2.tiles i = s.tiles i := hkeep2 i hi
        have hi2 : maskEntropy (s2.tiles i) = 1 := by rw [hs2]; exact hi
        rw [hkeep3 i hi2, hs2]

theorem board_entropy_of_all_one {b : Board} (h : ∀ i, i < 81 → maskEntropy (b i) = 1) :
    get_board_entropy b = 81 := by
  have h1 : ∀ i, i < 81 → 1 ≤ get_tile_entropy b i := by
    intro i hi
    rw [get_tile_entropy_eq, h i hi]
  exact (board_entropy_eq_81_iff b h1).2
    (fun i hi => by rw [get_tile_entropy_eq]; exact h i hi)

/-- C2: `solve_board` invoked on a freshly reset board terminates for
every stream of random choices: recursion depth 2 always suffices (one
pass collapses every cell, the second invocation hits the base case), it
returns success, and the final board entropy is 81.  In particular no
choice of random values makes it loop: every candidate scan finds a set
bit and every cascade stays within fuel 82. -/
theorem solve_board_terminates (rand : Nat → Nat) (s : WfcState) :
    ∃ s2 rc2, solve_board 2 rand 0 (reset_tiles s) = some (s2, rc2) ∧
      get_board_entropy s2.tiles = 81 := by
  have hnz : NZmask (reset_tiles s).tiles := fun i _ => by
    show (1 : Nat) ≤ maskEntropy 0x1FF
    decide
  obtain ⟨hlen, hmem⟩ := sort_tiles_mem (reset_tiles s).tiles
  obtain ⟨s2, rc2, hpass, hnz2, hall, -⟩ :=
    solve_pass_spec rand (sort_tiles (reset_tiles s).tiles) 0 (reset_tiles s)
      (fun k hk => (hmem k).1 hk) hnz
  have hall81 : ∀ i, i < 81 → maskEntropy (s2.tiles i) = 1 :=
    fun i hi => hall i ((hmem i).2 hi)
  have hent81 : get_board_entropy s2.tiles = 81 := board_entropy_of_all_one hall81
  refine ⟨s2, rc2, ?_, hent81⟩
  have hstep1 : solve_board 2 rand 0 (reset_tiles s) = solve_board 1 rand rc2 s2 := by
    show solve_board (1 + 1) rand 0 (reset_tiles s) = solve_board 1 rand rc2 s2
    rw [solve_board]
    rw [show (get_board_entropy (reset_tiles s).tiles == 81) = false from by
      show (get_board_entropy (fun _ => (0x1FF : Nat)) == 81) = false
      decide]
    simp only [Bool.false_eq_true, if_false, hpass]
  rw [hstep1]
  show solve_board (0 + 1) rand rc2 s2 = some (s2, rc2)
  rw [solve_board]
  have hcond : (get_board_entropy s2.tiles == 81) = true := by
    rw [hent81]
    rfl
  rw [hcond]
  simp only [eq_self_iff_true, if_true]
